import Mathlib

set_option maxRecDepth 4000

/-!
Shallow embedding of `src/scripts/caculate_profit.py`: a cross-exchange
spread monitor.  Prices are modelled as rationals; Python dictionaries are
modelled as association lists or as functions to `Option`; the asyncio
outer loop is modelled as a step function on cycle outcomes.
-/

namespace CalcProfit

/-- One entry of `spread_data` / `high_spread_data`: the tuple
`(symbol, exchange_1_name, exchange_2_name, price_1, price_2, spread, spread_percent)`
built at lines 84 and 89 of the source. -/
structure SpreadRecord where
  symbol : String
  exchange1 : String
  exchange2 : String
  price1 : ℚ
  price2 : ℚ
  spread : ℚ
  spread_percent : ℚ
deriving DecidableEq

/-- `spread = price_1 - price_2` (source line 82). -/
def spread (p1 p2 : ℚ) : ℚ := p1 - p2

/-- `spread_percent = (spread / price_2) * 100 if price_2 else 0`
(source line 83): the Python truthiness test on `price_2` guards the
division, so a zero reference price yields `0`. -/
def spread_percent (p1 p2 : ℚ) : ℚ :=
  if p2 ≠ 0 then (spread p1 p2 / p2) * 100 else 0

/-- Build the tuple appended to `spread_data` at line 84 of the source. -/
def mkSpreadRecord (sym e1 e2 : String) (p1 p2 : ℚ) : SpreadRecord :=
  { symbol := sym, exchange1 := e1, exchange2 := e2,
    price1 := p1, price2 := p2,
    spread := spread p1 p2,
    spread_percent := spread_percent p1 p2 }

/-- The sort key of line 91 of the source: `key=lambda x: abs(x[6])`,
the absolute spread percent of a record. -/
def sortKey (r : SpreadRecord) : ℚ := |r.spread_percent|

/-- Stable descending insertion: the new record is placed before the first
element whose key is not larger than its own, so records already present
that tie with it keep their earlier position relative to later ones. -/
def insertRecord (r : SpreadRecord) : List SpreadRecord → List SpreadRecord
  | [] => [r]
  | x :: xs => if sortKey x ≤ sortKey r then r :: x :: xs else x :: insertRecord r xs

/-- Line 91: `spread_data.sort(key=lambda x: abs(x[6]), reverse=True)`.
Python list.sort is stable, and with `reverse=True` it is the stable
descending sort by the key; modelled as stable insertion sort, which agrees
with every stable sort for a given total preorder. -/
def rank : List SpreadRecord → List SpreadRecord
  | [] => []
  | x :: xs => insertRecord x (rank xs)

/-- Lines 87-89: a record is collected into `high_spread_data` during
discovery exactly when `abs(spread_percent) > 0.5`, so the high-spread list
is the filter of the discovery-order spread list. -/
def highFilter (l : List SpreadRecord) : List SpreadRecord :=
  l.filter (fun r => decide ((0.5 : ℚ) < |r.spread_percent|))

/-- Lines 101-102:
`if len(spread_data) >= 250 and len(high_spread_data) >= 3:
await high_spread_queue.put(high_spread_data[:3])` — the Signal Batch put
on the queue for a cycle whose discovery-order spread list is the argument,
or `none` when the significance gate fails.  The in-place sort of line 91
does not change `len(spread_data)` and leaves `high_spread_data` untouched. -/
def cycleEmit (spread_data : List SpreadRecord) : Option (List SpreadRecord) :=
  if 250 ≤ spread_data.length ∧ 3 ≤ (highFilter spread_data).length then
    some ((highFilter spread_data).take 3)
  else none

/-- Concrete records exercising the classification: `rLow` has spread
percent 0; `rA`, `rB`, `rC`, `rD` have spread percents 1, 2, 3, 4. -/
def rLow : SpreadRecord := mkSpreadRecord "AAA" "binance" "okx" 100 100

def rA : SpreadRecord := mkSpreadRecord "SA" "binance" "okx" 101 100

def rB : SpreadRecord := mkSpreadRecord "SB" "binance" "okx" 102 100

def rC : SpreadRecord := mkSpreadRecord "SC" "binance" "okx" 103 100

def rD : SpreadRecord := mkSpreadRecord "SD" "binance" "okx" 104 100

/-- A cycle with 250 records whose four high-spread records are discovered
in increasing order of absolute spread percent. -/
def badCycle : List SpreadRecord :=
  rA :: rB :: rC :: rD :: List.replicate 246 rLow

/-- A cycle with 249 records of which five are high-spread. -/
def cycle249 : List SpreadRecord :=
  rA :: rB :: rC :: rD :: rA :: List.replicate 244 rLow

/-- A cycle with 250 records of which exactly three are high-spread. -/
def cycle250 : List SpreadRecord :=
  rA :: rB :: rC :: List.replicate 247 rLow

/-- One entry of an exchange's `markets` dictionary: the two flags the
source reads with `.get ("swap", False)` and `.get ("linear", False)`. -/
structure Market where
  swap : Bool
  linear : Bool
deriving DecidableEq

/-- An exchange's `markets` dictionary, keyed by symbol. -/
abbrev Catalog : Type := List (String × Market)

/-- `exchange.markets[symbol].get("swap", False) and
exchange.markets[symbol].get("linear", False)`: `false` when the symbol is
not in the catalog (lines 19 and 22 of the source). -/
def marketQualifies (c : Catalog) (s : String) : Bool :=
  match c.lookup s with
  | some m => m.swap && m.linear
  | none => false

/-- The set comprehension of lines 18-23: the set of symbols of the catalog
whose market is both swap and linear. -/
def qualifyingPairs (c : Catalog) : Finset String :=
  (c.map Prod.fst).toFinset.filter (fun s => marketQualifies c s = true)

/-- Lines 16-24, `get_common_pairs`: the intersection of the two exchanges'
qualifying symbol sets.  The source returns the set as a list in
unspecified order (spec 4.2); the set is modelled directly. -/
def get_common_pairs (c1 c2 : Catalog) : Finset String :=
  qualifyingPairs c1 ∩ qualifyingPairs c2

/-- A one-symbol catalog for "BTC/USDT:USDT", qualifying. -/
def catA : Catalog := [("BTC/USDT:USDT", ⟨true, true⟩)]

/-- A one-symbol catalog for "ETH/USDT:USDT", disjoint from `catA`. -/
def catB : Catalog := [("ETH/USDT:USDT", ⟨true, true⟩)]

/-- The snapshot `tickers_dict = price_cache.copy()` (line 61): a
symbol-keyed dictionary of exchange-keyed last prices. -/
abbrev Snapshot : Type := List (String × List (String × ℚ))

/-- Lines 78-79: `tickers_dict.get(symbol, \x7b\x7d).get(exchange_name, None)`. -/
def snapshotPrice (snap : Snapshot) (sym ex : String) : Option ℚ :=
  match snap.lookup sym with
  | some inner => inner.lookup ex
  | none => none

/-- Lines 81-84 for one (symbol, venue pair): when both prices are present
the record is built, otherwise nothing is produced; the function is total,
so no error can be raised. -/
def processPair (snap : Snapshot) (sym e1 e2 : String) : Option SpreadRecord :=
  match snapshotPrice snap sym e1, snapshotPrice snap sym e2 with
  | some p1, some p2 => some (mkSpreadRecord sym e1 e2 p1 p2)
  | _, _ => none

/-- The inner loop of lines 77-84 over one venue pair's common symbols:
a record is appended exactly for the symbols where both prices exist. -/
def pairSpreadData (snap : Snapshot) (e1 e2 : String)
    (syms : List String) : List SpreadRecord :=
  syms.filterMap (fun sym => processPair snap sym e1 e2)

/-- A snapshot pricing "BTC/USDT:USDT" on both binance and okx. -/
def snapBoth : Snapshot := [("BTC/USDT:USDT", [("binance", 100), ("okx", 99)])]

/-- A snapshot pricing "BTC/USDT:USDT" on binance only. -/
def snapOne : Snapshot := [("BTC/USDT:USDT", [("binance", 100)])]

/-- The `price_cache` dictionary of dictionaries, modelled as a function
from (symbol, exchange) to the stored last price. -/
abbrev PriceCache : Type := String → String → Option ℚ

/-- Line 57: `price_cache = \x7b\x7d`. -/
def emptyCache : PriceCache := fun _ _ => none

/-- Lines 42-44: `price_cache[symbol][exchange_name] = ticker["last"]`
(with the inner dictionary created first when the symbol is new); in the
function model this overwrites the single key `(symbol, exchange_name)`. -/
def writeQuote (cache : PriceCache) (exchange_name symbol : String)
    (last : ℚ) : PriceCache :=
  fun s e => if s = symbol ∧ e = exchange_name then some last else cache s e

/-- The loop of lines 41-44 over one exchange's `ticker_data`. -/
def ingestTickerData (cache : PriceCache) (exchange_name : String)
    (ticker_data : List (String × ℚ)) : PriceCache :=
  ticker_data.foldl (fun acc q => writeQuote acc exchange_name q.1 q.2) cache

/-- `subscribe_tickers` (lines 27-44) applied to the gathered per-exchange
results — and, iterated over all rounds since startup, the whole feed
history: each list element is one exchange's delivered `ticker_data`. -/
def subscribe_tickers (cache : PriceCache)
    (results : List (String × List (String × ℚ))) : PriceCache :=
  results.foldl (fun acc r => ingestTickerData acc r.1 r.2) cache

/-- The spec-side comparator for the Price Table invariant: the most
recently delivered price for a `(symbol, exchange)` key over a feed
history, where `acc` is the value standing before the history starts. -/
def specLastDeliveredFrom (acc : Option ℚ)
    (hist : List (String × List (String × ℚ))) (sym ex : String) : Option ℚ :=
  hist.foldl
    (fun a st =>
      if st.1 = ex then
        st.2.foldl (fun b q => if q.1 = sym then some q.2 else b) a
      else a) acc

/-- The spec-side last-write-wins value over a history from startup. -/
def specLastDelivered (hist : List (String × List (String × ℚ)))
    (sym ex : String) : Option ℚ :=
  specLastDeliveredFrom none hist sym ex

/-- The spec-side delivery predicate: some round of the history carried a
quote from `ex` for `sym`. -/
def specDelivered (hist : List (String × List (String × ℚ)))
    (sym ex : String) : Prop :=
  ∃ st ∈ hist, st.1 = ex ∧ sym ∈ st.2.map Prod.fst

/-- A cache already holding one price, for exercising monotonicity. -/
def sampleCache : PriceCache := writeQuote emptyCache "binance" "BTC/USDT:USDT" 100

/-- The outcome of one iteration of the `while True` body (lines 60-103):
the cycle body either ran to completion or raised some exception. -/
inductive CycleOutcome where
  | ok : CycleOutcome
  | errored : String → CycleOutcome
deriving DecidableEq

/-- What the loop does after a cycle: loop again immediately, pause first
and then loop again, or leave the loop.  `terminate` exists so the theorem
can state that the code never produces it. -/
inductive LoopAction where
  | continueNow : LoopAction
  | pauseThenContinue : ℕ → LoopAction
  | terminate : LoopAction
deriving DecidableEq

/-- Lines 59-106: the `try/except` wrapper around the cycle body.  A normal
cycle loops again at once; an exception is caught by `except Exception`,
logged via print, and followed by `await asyncio.sleep(5)` before
re-entering the loop.  No branch leaves the `while True` loop. -/
def outerLoopStep : CycleOutcome → LoopAction
  | .ok => .continueNow
  | .errored _ => .pauseThenContinue 5

/-- Whether the loop is still running after `n` cycles drawn from an
arbitrary stream of cycle outcomes. -/
def loopAlive (outcomes : ℕ → CycleOutcome) : ℕ → Bool
  | 0 => true
  | n + 1 =>
    match outerLoopStep (outcomes n) with
    | .terminate => false
    | _ => loopAlive outcomes n

end CalcProfit

namespace CalcProfit

theorem keyLow : sortKey rLow = 0 := by
  norm_num [sortKey, rLow, mkSpreadRecord, spread_percent, spread]

theorem keyA : sortKey rA = 1 := by
  norm_num [sortKey, rA, mkSpreadRecord, spread_percent, spread]

theorem keyB : sortKey rB = 2 := by
  norm_num [sortKey, rB, mkSpreadRecord, spread_percent, spread]

theorem keyC : sortKey rC = 3 := by
  norm_num [sortKey, rC, mkSpreadRecord, spread_percent, spread]

theorem keyD : sortKey rD = 4 := by
  norm_num [sortKey, rD, mkSpreadRecord, spread_percent, spread]

theorem highPred_low : ¬ ((0.5 : ℚ) < |rLow.spread_percent|) := by
  norm_num [rLow, mkSpreadRecord, spread_percent, spread]

theorem highPred_rA : (0.5 : ℚ) < |rA.spread_percent| := by
  norm_num [rA, mkSpreadRecord, spread_percent, spread]

theorem highPred_rB : (0.5 : ℚ) < |rB.spread_percent| := by
  norm_num [rB, mkSpreadRecord, spread_percent, spread]

theorem highPred_rC : (0.5 : ℚ) < |rC.spread_percent| := by
  norm_num [rC, mkSpreadRecord, spread_percent, spread]

theorem highPred_rD : (0.5 : ℚ) < |rD.spread_percent| := by
  norm_num [rD, mkSpreadRecord, spread_percent, spread]

theorem highFilter_badCycle : highFilter badCycle = [rA, rB, rC, rD] := by
  simp [highFilter, badCycle, List.filter_cons, highPred_rA, highPred_rB,
    highPred_rC, highPred_rD, List.filter_replicate, highPred_low]

theorem highFilter_cycle250 : highFilter cycle250 = [rA, rB, rC] := by
  simp [highFilter, cycle250, List.filter_cons, highPred_rA, highPred_rB,
    highPred_rC, List.filter_replicate, highPred_low]

theorem cycleEmit_badCycle : cycleEmit badCycle = some [rA, rB, rC] := by
  have hlen : badCycle.length = 250 := by simp [badCycle]
  norm_num [cycleEmit, highFilter_badCycle, hlen, List.take_succ_cons]

theorem rank_high_badCycle : rank (highFilter badCycle) = [rD, rC, rB, rA] := by
  rw [highFilter_badCycle]
  norm_num [rank, insertRecord, keyA, keyB, keyC, keyD]

theorem mem_insertRecord (r y : SpreadRecord) :
    ∀ l : List SpreadRecord, y ∈ insertRecord r l ↔ y = r ∨ y ∈ l := by
  intro l
  induction l with
  | nil => simp [insertRecord]
  | cons x xs ih =>
    by_cases hc : sortKey x ≤ sortKey r
    · simp [insertRecord, hc]
    · simp only [insertRecord, if_neg hc, List.mem_cons, ih]
      tauto

theorem pairwise_insertRecord (r : SpreadRecord) :
    ∀ l : List SpreadRecord,
      l.Pairwise (fun a b => sortKey b ≤ sortKey a) →
      (insertRecord r l).Pairwise (fun a b => sortKey b ≤ sortKey a) := by
  intro l
  induction l with
  | nil => intro _; simp [insertRecord]
  | cons x xs ih =>
    intro h
    rw [List.pairwise_cons] at h
    obtain ⟨hx, hxs⟩ := h
    by_cases hc : sortKey x ≤ sortKey r
    · simp only [insertRecord, if_pos hc]
      refine List.pairwise_cons.mpr ⟨?_, List.pairwise_cons.mpr ⟨hx, hxs⟩⟩
      intro z hz
      rcases List.mem_cons.mp hz with rfl | hz
      · exact hc
      · exact le_trans (hx z hz) hc
    · simp only [insertRecord, if_neg hc]
      refine List.pairwise_cons.mpr ⟨?_, ih hxs⟩
      intro z hz
      rcases (mem_insertRecord r z xs).mp hz with rfl | hz
      · exact le_of_not_le hc
      · exact hx z hz

theorem rank_pairwise (l : List SpreadRecord) :
    (rank l).Pairwise (fun a b => sortKey b ≤ sortKey a) := by
  induction l with
  | nil => simp [rank]
  | cons x xs ih => exact pairwise_insertRecord x (rank xs) ih

theorem filter_insertRecord_of_key (k : ℚ) (r : SpreadRecord)
    (hr : sortKey r = k) :
    ∀ l : List SpreadRecord,
      (insertRecord r l).filter (fun a => decide (sortKey a = k)) =
        r :: l.filter (fun a => decide (sortKey a = k)) := by
  intro l
  induction l with
  | nil => simp [insertRecord, hr]
  | cons x xs ih =>
    by_cases hc : sortKey x ≤ sortKey r
    · simp only [insertRecord, if_pos hc]
      simp [List.filter_cons, hr]
    · have hxk : ¬ (sortKey x = k) := fun hk => hc (le_of_eq (hk.trans hr.symm))
      simp [insertRecord, if_neg hc, List.filter_cons, hxk, ih]

theorem filter_insertRecord_of_ne (k : ℚ) (r : SpreadRecord)
    (hr : sortKey r ≠ k) :
    ∀ l : List SpreadRecord,
      (insertRecord r l).filter (fun a => decide (sortKey a = k)) =
        l.filter (fun a => decide (sortKey a = k)) := by
  intro l
  induction l with
  | nil => simp [insertRecord, hr]
  | cons x xs ih =>
    by_cases hc : sortKey x ≤ sortKey r
    · simp [insertRecord, hc, hr]
    · simp only [insertRecord, if_neg hc, List.filter_cons, ih]

theorem rank_filter_key (l : List SpreadRecord) (k : ℚ) :
    (rank l).filter (fun a => decide (sortKey a = k)) =
      l.filter (fun a => decide (sortKey a = k)) := by
  induction l with
  | nil => simp [rank]
  | cons x xs ih =>
    by_cases hx : sortKey x = k
    · rw [rank, filter_insertRecord_of_key k x hx, ih]
      simp [List.filter_cons, hx]
    · rw [rank, filter_insertRecord_of_ne k x hx, ih]
      simp [List.filter_cons, hx]

theorem rank_of_pairwise :
    ∀ l : List SpreadRecord,
      l.Pairwise (fun a b => sortKey b ≤ sortKey a) → rank l = l := by
  intro l
  induction l with
  | nil => intro _; rfl
  | cons x xs ih =>
    intro h
    rw [List.pairwise_cons] at h
    obtain ⟨hx, hxs⟩ := h
    rw [rank, ih hxs]
    cases xs with
    | nil => rfl
    | cons y ys =>
      have : sortKey y ≤ sortKey x := hx y (List.mem_cons_self y ys)
      simp [insertRecord, this]

/-- C3: with a zero reference price the spread-percent computation returns 0
for every numerator price (and, being a total function, raises nothing);
with a nonzero reference price it returns `(p1 - p2) / p2 * 100`. -/
theorem spread_percent_zero_guard :
    (∀ p1 : ℚ, spread_percent p1 0 = 0) ∧
    (∀ p1 p2 : ℚ, p2 ≠ 0 → spread_percent p1 p2 = (p1 - p2) / p2 * 100) := by
  constructor
  · intro p1
    simp [spread_percent]
  · intro p1 p2 h
    simp [spread_percent, spread, h]

theorem spread_percent_zero_guard_witness :
    spread_percent 7 0 = 0 ∧ spread_percent 3 2 = (3 - 2) / 2 * 100 :=
  ⟨spread_percent_zero_guard.1 7,
   spread_percent_zero_guard.2 3 2 (by norm_num)⟩

/-- C6: swapping the venue order negates the spread, and the swapped
spread-percent equals `-spread / p1 * 100`, which in general differs from
the negation of the original spread-percent (witnessed at prices (100, 99)):
the definition is asymmetric in the venue order. -/
theorem spread_asymmetry :
    (∀ p1 p2 : ℚ, p1 ≠ 0 → p2 ≠ 0 →
      spread p2 p1 = -(spread p1 p2) ∧
      spread_percent p2 p1 = -(spread p1 p2) / p1 * 100) ∧
    spread_percent 99 100 ≠ -(spread_percent 100 99) := by
  constructor
  · intro p1 p2 h1 _h2
    refine ⟨by simp [spread], ?_⟩
    simp [spread_percent, spread, h1]
  · norm_num [spread_percent, spread]

theorem spread_asymmetry_witness :
    spread 99 100 = -(spread 100 99) ∧
    spread_percent 99 100 = -(spread 100 99) / 100 * 100 :=
  spread_asymmetry.1 100 99 (by norm_num) (by norm_num)

/-- C4: the rank step sorts the cycle's record list descending by
`|spreadPercent|`; records with equal `|spreadPercent|` keep their original
discovery order (for every key value, the tied records appear in the ranked
list exactly as they appear in the input); and re-running the rank step on
the already ranked list changes nothing. -/
theorem rank_stable_descending (l : List SpreadRecord) :
    (rank l).Pairwise (fun a b => sortKey b ≤ sortKey a) ∧
    (∀ k : ℚ, (rank l).filter (fun a => decide (sortKey a = k)) =
      l.filter (fun a => decide (sortKey a = k))) ∧
    rank (rank l) = rank l :=
  ⟨rank_pairwise l, fun k => rank_filter_key l k,
   rank_of_pairwise (rank l) (rank_pairwise l)⟩

/-- C1 fails on the code: `badCycle` passes the significance gate, yet the
batch put on the queue is the first three high-spread records in discovery
order (`[rA, rB, rC]`, spread percents 1, 2, 3), while the top three
high-spread records by descending `|spreadPercent|` are `[rD, rC, rB]`
(spread percents 4, 3, 2) — the code never re-ranks `high_spread_data`. -/
theorem batch_not_top_ranked :
    cycleEmit badCycle = some [rA, rB, rC] ∧
    (rank (highFilter badCycle)).take 3 = [rD, rC, rB] ∧
    ([rA, rB, rC] : List SpreadRecord) ≠ [rD, rC, rB] := by
  refine ⟨cycleEmit_badCycle, ?_, ?_⟩
  · rw [rank_high_badCycle]
    rfl
  · simp [rA, rD, mkSpreadRecord]

/-- C1 (amended): every Signal Batch submitted by a significant cycle
consists of the first 3 High-Spread Records in discovery order; it need not
be the top 3 of the descending-`|spreadPercent|` ranking. -/
theorem batch_is_first_three_discovered (l b : List SpreadRecord)
    (h : cycleEmit l = some b) : b = (highFilter l).take 3 := by
  unfold cycleEmit at h
  split at h
  · exact (Option.some.inj h).symm
  · exact Option.noConfusion h

theorem batch_is_first_three_discovered_witness :
    cycleEmit badCycle = some [rA, rB, rC] ∧
    ([rA, rB, rC] : List SpreadRecord) = (highFilter badCycle).take 3 :=
  ⟨cycleEmit_badCycle,
   batch_is_first_three_discovered badCycle [rA, rB, rC] cycleEmit_badCycle⟩

/-- C2: a cycle enqueues a Signal Batch iff its spread list has at least 250
entries and its high-spread list at least 3; in particular 249 total with 5
high-spread records enqueues nothing, while 250 total with 3 high-spread
records enqueues one batch. -/
theorem significance_gate :
    (∀ l : List SpreadRecord,
      (cycleEmit l).isSome = true ↔
        (250 ≤ l.length ∧ 3 ≤ (highFilter l).length)) ∧
    cycleEmit cycle249 = none ∧
    (cycleEmit cycle250).isSome = true := by
  refine ⟨?_, ?_, ?_⟩
  · intro l
    unfold cycleEmit
    split <;> simp_all
  · have hlen : cycle249.length = 249 := by simp [cycle249]
    norm_num [cycleEmit, hlen]
  · have hlen : cycle250.length = 250 := by simp [cycle250]
    norm_num [cycleEmit, hlen, highFilter_cycle250]

theorem significance_gate_witness :
    (cycleEmit cycle250).isSome = true ∧
    (250 ≤ cycle250.length ∧ 3 ≤ (highFilter cycle250).length) :=
  ⟨significance_gate.2.2, (significance_gate.1 cycle250).mp significance_gate.2.2⟩

/-- C10: every Signal Batch that is actually enqueued contains exactly 3
records, never fewer: the gate requires at least 3 high-spread records and
the batch is their 3-element prefix. -/
theorem batch_length_exactly_three (l b : List SpreadRecord)
    (h : cycleEmit l = some b) : b.length = 3 := by
  unfold cycleEmit at h
  split at h
  · next hc =>
      have hb := (Option.some.inj h).symm
      subst hb
      rw [List.length_take]
      exact Nat.min_eq_left hc.2
  · exact Option.noConfusion h

theorem batch_length_exactly_three_witness :
    cycleEmit badCycle = some [rA, rB, rC] ∧
    ([rA, rB, rC] : List SpreadRecord).length = 3 :=
  ⟨cycleEmit_badCycle,
   batch_length_exactly_three badCycle [rA, rB, rC] cycleEmit_badCycle⟩

theorem lookup_some_mem_keys {β : Type} :
    ∀ (c : List (String × β)) (s : String) (m : β),
      List.lookup s c = some m → s ∈ c.map Prod.fst := by
  intro c
  induction c with
  | nil => intro s m h; exact Option.noConfusion h
  | cons e rest ih =>
    intro s m h
    rw [List.lookup] at h
    cases hbe : (s == e.1) with
    | true =>
      simp only [List.map_cons, List.mem_cons]
      left
      exact eq_of_beq hbe
    | false =>
      rw [hbe] at h
      exact List.mem_cons_of_mem _ (ih s m h)

theorem marketQualifies_mem (c : Catalog) (s : String)
    (h : marketQualifies c s = true) : s ∈ c.map Prod.fst := by
  unfold marketQualifies at h
  cases hl : List.lookup s c with
  | none => rw [hl] at h; exact Bool.noConfusion h
  | some m => exact lookup_some_mem_keys c s m hl

theorem mem_qualifyingPairs (c : Catalog) (s : String) :
    s ∈ qualifyingPairs c ↔ marketQualifies c s = true := by
  unfold qualifyingPairs
  rw [Finset.mem_filter, List.mem_toFinset]
  exact ⟨fun h => h.2, fun h => ⟨marketQualifies_mem c s h, h⟩⟩

/-- C5: a symbol is in the common-pair result iff it qualifies as a linear
perpetual-style (swap and linear) contract on both venues' catalogs, and
catalogs with disjoint symbol sets give the empty result. -/
theorem common_pairs_intersection :
    (∀ (c1 c2 : Catalog) (s : String),
      s ∈ get_common_pairs c1 c2 ↔
        (marketQualifies c1 s = true ∧ marketQualifies c2 s = true)) ∧
    (∀ c1 c2 : Catalog,
      (∀ s ∈ c1.map Prod.fst, s ∉ c2.map Prod.fst) →
        get_common_pairs c1 c2 = ∅) := by
  have hmem : ∀ (c1 c2 : Catalog) (s : String),
      s ∈ get_common_pairs c1 c2 ↔
        (marketQualifies c1 s = true ∧ marketQualifies c2 s = true) := by
    intro c1 c2 s
    unfold get_common_pairs
    rw [Finset.mem_inter, mem_qualifyingPairs, mem_qualifyingPairs]
  refine ⟨hmem, ?_⟩
  intro c1 c2 hdisj
  rw [Finset.eq_empty_iff_forall_not_mem]
  intro s hs
  obtain ⟨h1, h2⟩ := (hmem c1 c2 s).mp hs
  exact hdisj s (marketQualifies_mem c1 s h1) (marketQualifies_mem c2 s h2)

theorem common_pairs_intersection_witness :
    get_common_pairs catA catB = ∅ :=
  common_pairs_intersection.2 catA catB (by decide)

theorem processPair_symbol (snap : Snapshot) (sym e1 e2 : String)
    (r : SpreadRecord) (h : processPair snap sym e1 e2 = some r) :
    r.symbol = sym := by
  unfold processPair at h
  cases h1 : snapshotPrice snap sym e1 with
  | none => rw [h1] at h; exact Option.noConfusion h
  | some p1 =>
    cases h2 : snapshotPrice snap sym e2 with
    | none => rw [h1, h2] at h; exact Option.noConfusion h
    | some p2 =>
      rw [h1, h2] at h
      rw [← Option.some.inj h]
      rfl

/-- C7: a (symbol, venue-pair) yields a record exactly when the snapshot
holds both prices; a missing price on either venue means no record for that
symbol appears in the pair's spread data — and no error, all functions
involved being total. -/
theorem skip_missing_price :
    (∀ (snap : Snapshot) (sym e1 e2 : String),
      (processPair snap sym e1 e2).isSome =
        ((snapshotPrice snap sym e1).isSome &&
          (snapshotPrice snap sym e2).isSome)) ∧
    (∀ (snap : Snapshot) (sym e1 e2 : String),
      snapshotPrice snap sym e1 = none ∨ snapshotPrice snap sym e2 = none →
        processPair snap sym e1 e2 = none) ∧
    (∀ (snap : Snapshot) (sym e1 e2 : String) (p1 p2 : ℚ),
      snapshotPrice snap sym e1 = some p1 →
      snapshotPrice snap sym e2 = some p2 →
        processPair snap sym e1 e2 = some (mkSpreadRecord sym e1 e2 p1 p2)) ∧
    (∀ (snap : Snapshot) (e1 e2 sym : String) (syms : List String),
      snapshotPrice snap sym e1 = none ∨ snapshotPrice snap sym e2 = none →
        sym ∉ (pairSpreadData snap e1 e2 syms).map SpreadRecord.symbol) := by
  have hnone : ∀ (snap : Snapshot) (sym e1 e2 : String),
      snapshotPrice snap sym e1 = none ∨ snapshotPrice snap sym e2 = none →
        processPair snap sym e1 e2 = none := by
    intro snap sym e1 e2 h
    unfold processPair
    rcases h with h | h
    · rw [h]
    · rw [h]
      cases snapshotPrice snap sym e1 <;> rfl
  refine ⟨?_, hnone, ?_, ?_⟩
  · intro snap sym e1 e2
    unfold processPair
    cases snapshotPrice snap sym e1 <;> cases snapshotPrice snap sym e2 <;> rfl
  · intro snap sym e1 e2 p1 p2 h1 h2
    unfold processPair
    rw [h1, h2]
  · intro snap e1 e2 sym syms h hmem
    rw [List.mem_map] at hmem
    obtain ⟨r, hr, hsym⟩ := hmem
    rw [pairSpreadData, List.mem_filterMap] at hr
    obtain ⟨a, _, ha⟩ := hr
    have haeq : a = sym := by
      rw [← processPair_symbol snap a e1 e2 r ha, hsym]
    subst haeq
    rw [hnone snap a e1 e2 h] at ha
    exact Option.noConfusion ha

theorem skip_missing_price_witness :
    processPair snapOne "BTC/USDT:USDT" "binance" "okx" = none ∧
    processPair snapBoth "BTC/USDT:USDT" "binance" "okx" =
      some (mkSpreadRecord "BTC/USDT:USDT" "binance" "okx" 100 99) ∧
    "BTC/USDT:USDT" ∉
      (pairSpreadData snapOne "binance" "okx" ["BTC/USDT:USDT"]).map
        SpreadRecord.symbol :=
  ⟨skip_missing_price.2.1 snapOne "BTC/USDT:USDT" "binance" "okx"
      (Or.inr (by rfl)),
   skip_missing_price.2.2.1 snapBoth "BTC/USDT:USDT" "binance" "okx" 100 99
      (by rfl) (by rfl),
   skip_missing_price.2.2.2 snapOne "binance" "okx" "BTC/USDT:USDT"
      ["BTC/USDT:USDT"] (Or.inr (by rfl))⟩

theorem ingestTickerData_read :
    ∀ (td : List (String × ℚ)) (cache : PriceCache) (exB symQ exQ : String),
      ingestTickerData cache exB td symQ exQ =
        if exB = exQ then
          td.foldl (fun b q => if q.1 = symQ then some q.2 else b)
            (cache symQ exQ)
        else cache symQ exQ := by
  intro td
  induction td with
  | nil =>
    intro cache exB symQ exQ
    simp [ingestTickerData]
  | cons q qs ih =>
    intro cache exB symQ exQ
    have step : ingestTickerData cache exB (q :: qs) symQ exQ =
        ingestTickerData (writeQuote cache exB q.1 q.2) exB qs symQ exQ := rfl
    rw [step, ih, List.foldl_cons]
    simp only [writeQuote]
    by_cases he : exB = exQ
    · rw [if_pos he, if_pos he]
      congr 1
      by_cases hs : q.1 = symQ
      · rw [if_pos hs, if_pos ⟨hs.symm, he.symm⟩]
      · rw [if_neg hs, if_neg (fun hand => hs hand.1.symm)]
    · rw [if_neg he, if_neg he, if_neg (fun hand => he hand.2.symm)]

theorem subscribe_tickers_read :
    ∀ (hist : List (String × List (String × ℚ))) (cache : PriceCache)
      (sym ex : String),
      subscribe_tickers cache hist sym ex =
        specLastDeliveredFrom (cache sym ex) hist sym ex := by
  intro hist
  induction hist with
  | nil => intro cache sym ex; rfl
  | cons st rest ih =>
    intro cache sym ex
    have step : subscribe_tickers cache (st :: rest) sym ex =
        subscribe_tickers (ingestTickerData cache st.1 st.2) rest sym ex := rfl
    have step2 : specLastDeliveredFrom (cache sym ex) (st :: rest) sym ex =
        specLastDeliveredFrom
          (if st.1 = ex then
            st.2.foldl (fun b q => if q.1 = sym then some q.2 else b)
              (cache sym ex)
          else cache sym ex) rest sym ex := rfl
    rw [step, step2, ih]
    congr 1
    rw [ingestTickerData_read st.2 cache st.1 sym ex]

theorem batchFold_ne_none :
    ∀ (td : List (String × ℚ)) (acc : Option ℚ) (sym : String),
      td.foldl (fun b q => if q.1 = sym then some q.2 else b) acc ≠ none ↔
        (sym ∈ td.map Prod.fst ∨ acc ≠ none) := by
  intro td
  induction td with
  | nil => intro acc sym; simp
  | cons q qs ih =>
    intro acc sym
    rw [List.foldl_cons, ih]
    by_cases hs : q.1 = sym
    · simp [hs]
    · have hs2 : ¬ (sym = q.1) := fun h => hs h.symm
      simp [hs, hs2]

theorem specLastDeliveredFrom_ne_none :
    ∀ (hist : List (String × List (String × ℚ))) (acc : Option ℚ)
      (sym ex : String),
      specLastDeliveredFrom acc hist sym ex ≠ none ↔
        (specDelivered hist sym ex ∨ acc ≠ none) := by
  intro hist
  induction hist with
  | nil =>
    intro acc sym ex
    simp [specLastDeliveredFrom, specDelivered]
  | cons st rest ih =>
    intro acc sym ex
    have step : specLastDeliveredFrom acc (st :: rest) sym ex =
        specLastDeliveredFrom
          (if st.1 = ex then
            st.2.foldl (fun b q => if q.1 = sym then some q.2 else b) acc
          else acc) rest sym ex := rfl
    have hdel : specDelivered (st :: rest) sym ex ↔
        ((st.1 = ex ∧ sym ∈ st.2.map Prod.fst) ∨ specDelivered rest sym ex) := by
      unfold specDelivered
      simp
    rw [step, ih, hdel]
    by_cases he : st.1 = ex
    · rw [if_pos he, batchFold_ne_none]
      simp [he]
      tauto
    · rw [if_neg he]
      simp [he]

/-- C8: over any feed history from startup, the price cache holds at each
`(symbol, exchange)` key exactly the most recently delivered price for that
key; a key is present (non-`none`) iff that exchange has delivered at least
one quote for that symbol; and a further ingestion step never removes a
present key. -/
theorem price_cache_last_write_wins :
    (∀ (hist : List (String × List (String × ℚ))) (sym ex : String),
      subscribe_tickers emptyCache hist sym ex = specLastDelivered hist sym ex) ∧
    (∀ (hist : List (String × List (String × ℚ))) (sym ex : String),
      subscribe_tickers emptyCache hist sym ex ≠ none ↔
        specDelivered hist sym ex) ∧
    (∀ (cache : PriceCache) (results : List (String × List (String × ℚ)))
      (sym ex : String),
      cache sym ex ≠ none → subscribe_tickers cache results sym ex ≠ none) := by
  have h1 : ∀ (hist : List (String × List (String × ℚ))) (sym ex : String),
      subscribe_tickers emptyCache hist sym ex = specLastDelivered hist sym ex := by
    intro hist sym ex
    rw [subscribe_tickers_read hist emptyCache sym ex]
    rfl
  refine ⟨h1, ?_, ?_⟩
  · intro hist sym ex
    rw [h1, specLastDelivered, specLastDeliveredFrom_ne_none]
    simp
  · intro cache results sym ex hc
    rw [subscribe_tickers_read results cache sym ex,
      specLastDeliveredFrom_ne_none]
    exact Or.inr hc

theorem price_cache_last_write_wins_witness :
    sampleCache "BTC/USDT:USDT" "binance" ≠ none ∧
    subscribe_tickers sampleCache [("okx", [("ETH/USDT:USDT", 5)])]
      "BTC/USDT:USDT" "binance" ≠ none := by
  have hc : sampleCache "BTC/USDT:USDT" "binance" ≠ none := by
    simp [sampleCache, writeQuote]
  exact ⟨hc, price_cache_last_write_wins.2.2 sampleCache
    [("okx", [("ETH/USDT:USDT", 5)])] "BTC/USDT:USDT" "binance" hc⟩

/-- C9: for every infinite stream of cycle outcomes — including streams
that error on every cycle — the loop is still alive after any number of
cycles (there is no retry limit and no exception escapes the loop), an
errored cycle pauses exactly 5 seconds and then re-enters the loop, and no
outcome makes the loop terminate. -/
theorem loop_never_terminates :
    (∀ (outcomes : ℕ → CycleOutcome) (n : ℕ), loopAlive outcomes n = true) ∧
    (∀ msg, outerLoopStep (CycleOutcome.errored msg) =
      LoopAction.pauseThenContinue 5) ∧
    (∀ o, outerLoopStep o ≠ LoopAction.terminate) := by
  refine ⟨?_, fun _ => rfl, ?_⟩
  · intro outcomes n
    induction n with
    | zero => rfl
    | succ n ih =>
      cases ho : outcomes n with
      | ok => simp [loopAlive, ho, outerLoopStep, ih]
      | errored m => simp [loopAlive, ho, outerLoopStep, ih]
  · intro o
    cases o <;> simp [outerLoopStep]

end CalcProfit
